import Mathlib

/-!
# Rename-Icons: the name transformer, the unique-name resolver and the planner

A shallow embedding of `src/index.js`.

* A JavaScript string is the list of its UTF-16 code units.
* Node built-ins the program calls (`String.prototype.trim`, `split`,
  `toUpperCase`, `path.extname`, `path.basename`, `fs.access`, `fs.lstat`,
  `fs.rename`) are modelled from their documented behaviour.
* A thrown exception is `none` (or an `Except.error`); the `while (true)` loop
  of `ensureUniqueTarget` runs on explicit fuel.
-/

namespace RenameIcons

/-! ## JavaScript strings -/

/-- A JavaScript string: its sequence of UTF-16 code units. -/
abbrev JSString := List Nat

/-- The UTF-16 code units of one Unicode scalar value. -/
def utf16Units (c : Char) : List Nat :=
  if c.toNat < 65536 then [c.toNat]
  else [55296 + (c.toNat - 65536) / 1024, 56320 + (c.toNat - 65536) % 1024]

/-- The JavaScript string written as a literal. -/
def js (s : String) : JSString :=
  (s.toList.map utf16Units).flatten

/-- The code units matched by `\s`, which are also the ones `trim` strips:
ECMAScript WhiteSpace and LineTerminator. -/
def isWhiteSpace (c : Nat) : Bool :=
  (9 ≤ c && c ≤ 13) || c == 32 || c == 160 || c == 5760 || (8192 ≤ c && c ≤ 8202) ||
    c == 8232 || c == 8233 || c == 8239 || c == 8287 || c == 12288 || c == 65279

/-- The character class `[\s-]` of the separator pattern. -/
def isSeparator (c : Nat) : Bool :=
  isWhiteSpace c || c == 45

/-- The method `String.prototype.trim`. -/
def trim (s : JSString) : JSString :=
  ((s.dropWhile isWhiteSpace).reverse.dropWhile isWhiteSpace).reverse

/-- The call `s.split(/[\s-]+/g)` read from the left; `inRun` says that the previous
code unit belonged to the separator run being skipped. Every maximal run of
separator units ends one piece and starts the next, so a leading or trailing
run leaves an empty piece, and the empty string gives one empty piece. -/
def splitFrom : Bool → JSString → List JSString
  | _, [] => [[]]
  | inRun, c :: cs =>
    if isSeparator c then
      if inRun then splitFrom true cs else [] :: splitFrom true cs
    else
      match splitFrom false cs with
      | [] => [[c]]
      | p :: ps => (c :: p) :: ps

/-- The call `s.split(/[\s-]+/g)`. -/
def split (s : JSString) : List JSString :=
  splitFrom false s

/-! ## Case mapping

The method `toUpperCase` on a one-unit string follows the Unicode default case
conversion (UnicodeData simple mappings and the unconditional SpecialCasing
entries, Unicode 14.0). No code unit of the Basic Multilingual Plane maps outside
it, and a lone surrogate is left as it is. -/

/-- Code units with a one-unit uppercase form, as `(lo, hi, step, target)`: the
unit `lo + k * step` (up to `hi`) maps to `target + k * step`. -/
def upperRanges : List (Nat × Nat × Nat × Nat) :=
  [
   (97, 122, 1, 65), (181, 181, 1, 924), (224, 246, 1, 192), (248, 254, 1, 216), (255, 255, 1, 376),
   (257, 303, 2, 256), (305, 305, 1, 73), (307, 311, 2, 306), (314, 328, 2, 313), (331, 375, 2, 330),
   (378, 382, 2, 377), (383, 383, 1, 83), (384, 384, 1, 579), (387, 389, 2, 386), (392, 392, 1, 391),
   (396, 396, 1, 395), (402, 402, 1, 401), (405, 405, 1, 502), (409, 409, 1, 408), (410, 410, 1, 573),
   (414, 414, 1, 544), (417, 421, 2, 416), (424, 424, 1, 423), (429, 429, 1, 428), (432, 432, 1, 431),
   (436, 438, 2, 435), (441, 441, 1, 440), (445, 445, 1, 444), (447, 447, 1, 503), (453, 453, 1, 452),
   (454, 454, 1, 452), (456, 456, 1, 455), (457, 457, 1, 455), (459, 459, 1, 458), (460, 460, 1, 458),
   (462, 476, 2, 461), (477, 477, 1, 398), (479, 495, 2, 478), (498, 498, 1, 497), (499, 499, 1, 497),
   (501, 501, 1, 500), (505, 543, 2, 504), (547, 563, 2, 546), (572, 572, 1, 571), (575, 576, 1, 11390),
   (578, 578, 1, 577), (583, 591, 2, 582), (592, 592, 1, 11375), (593, 593, 1, 11373), (594, 594, 1, 11376),
   (595, 595, 1, 385), (596, 596, 1, 390), (598, 599, 1, 393), (601, 601, 1, 399), (603, 603, 1, 400),
   (604, 604, 1, 42923), (608, 608, 1, 403), (609, 609, 1, 42924), (611, 611, 1, 404), (613, 613, 1, 42893),
   (614, 614, 1, 42922), (616, 616, 1, 407), (617, 617, 1, 406), (618, 618, 1, 42926), (619, 619, 1, 11362),
   (620, 620, 1, 42925), (623, 623, 1, 412), (625, 625, 1, 11374), (626, 626, 1, 413), (629, 629, 1, 415),
   (637, 637, 1, 11364), (640, 640, 1, 422), (642, 642, 1, 42949), (643, 643, 1, 425), (647, 647, 1, 42929),
   (648, 648, 1, 430), (649, 649, 1, 580), (650, 651, 1, 433), (652, 652, 1, 581), (658, 658, 1, 439),
   (669, 669, 1, 42930), (670, 670, 1, 42928), (837, 837, 1, 921), (881, 883, 2, 880), (887, 887, 1, 886),
   (891, 893, 1, 1021), (940, 940, 1, 902), (941, 943, 1, 904), (945, 961, 1, 913), (962, 962, 1, 931),
   (963, 971, 1, 931), (972, 972, 1, 908), (973, 974, 1, 910), (976, 976, 1, 914), (977, 977, 1, 920),
   (981, 981, 1, 934), (982, 982, 1, 928), (983, 983, 1, 975), (985, 1007, 2, 984), (1008, 1008, 1, 922),
   (1009, 1009, 1, 929), (1010, 1010, 1, 1017), (1011, 1011, 1, 895), (1013, 1013, 1, 917), (1016, 1016, 1, 1015),
   (1019, 1019, 1, 1018), (1072, 1103, 1, 1040), (1104, 1119, 1, 1024), (1121, 1153, 2, 1120), (1163, 1215, 2, 1162),
   (1218, 1230, 2, 1217), (1231, 1231, 1, 1216), (1233, 1327, 2, 1232), (1377, 1414, 1, 1329), (4304, 4346, 1, 7312),
   (4349, 4351, 1, 7357), (5112, 5117, 1, 5104), (7296, 7296, 1, 1042), (7297, 7297, 1, 1044), (7298, 7298, 1, 1054),
   (7299, 7300, 1, 1057), (7301, 7301, 1, 1058), (7302, 7302, 1, 1066), (7303, 7303, 1, 1122), (7304, 7304, 1, 42570),
   (7545, 7545, 1, 42877), (7549, 7549, 1, 11363), (7566, 7566, 1, 42950), (7681, 7829, 2, 7680), (7835, 7835, 1, 7776),
   (7841, 7935, 2, 7840), (7936, 7943, 1, 7944), (7952, 7957, 1, 7960), (7968, 7975, 1, 7976), (7984, 7991, 1, 7992),
   (8000, 8005, 1, 8008), (8017, 8023, 2, 8025), (8032, 8039, 1, 8040), (8048, 8049, 1, 8122), (8050, 8053, 1, 8136),
   (8054, 8055, 1, 8154), (8056, 8057, 1, 8184), (8058, 8059, 1, 8170), (8060, 8061, 1, 8186), (8112, 8113, 1, 8120),
   (8126, 8126, 1, 921), (8144, 8145, 1, 8152), (8160, 8161, 1, 8168), (8165, 8165, 1, 8172), (8526, 8526, 1, 8498),
   (8560, 8575, 1, 8544), (8580, 8580, 1, 8579), (9424, 9449, 1, 9398), (11312, 11359, 1, 11264), (11361, 11361, 1, 11360),
   (11365, 11365, 1, 570), (11366, 11366, 1, 574), (11368, 11372, 2, 11367), (11379, 11379, 1, 11378), (11382, 11382, 1, 11381),
   (11393, 11491, 2, 11392), (11500, 11502, 2, 11499), (11507, 11507, 1, 11506), (11520, 11557, 1, 4256), (11559, 11559, 1, 4295),
   (11565, 11565, 1, 4301), (42561, 42605, 2, 42560), (42625, 42651, 2, 42624), (42787, 42799, 2, 42786), (42803, 42863, 2, 42802),
   (42874, 42876, 2, 42873), (42879, 42887, 2, 42878), (42892, 42892, 1, 42891), (42897, 42899, 2, 42896), (42900, 42900, 1, 42948),
   (42903, 42921, 2, 42902), (42933, 42947, 2, 42932), (42952, 42954, 2, 42951), (42961, 42961, 1, 42960), (42967, 42969, 2, 42966),
   (42998, 42998, 1, 42997), (43859, 43859, 1, 42931), (43888, 43967, 1, 5024), (65345, 65370, 1, 65313)]
/-- Code units whose uppercase form has several code units (SpecialCasing),
such as U+00DF, which becomes `SS`. -/
def upperSpecial : List (Nat × List Nat) :=
  [
   (223, [83, 83]), (329, [700, 78]), (496, [74, 780]), (912, [921, 776, 769]), (944, [933, 776, 769]),
   (1415, [1333, 1362]), (7830, [72, 817]), (7831, [84, 776]), (7832, [87, 778]), (7833, [89, 778]),
   (7834, [65, 702]), (8016, [933, 787]), (8018, [933, 787, 768]), (8020, [933, 787, 769]), (8022, [933, 787, 834]),
   (8064, [7944, 921]), (8065, [7945, 921]), (8066, [7946, 921]), (8067, [7947, 921]), (8068, [7948, 921]),
   (8069, [7949, 921]), (8070, [7950, 921]), (8071, [7951, 921]), (8072, [7944, 921]), (8073, [7945, 921]),
   (8074, [7946, 921]), (8075, [7947, 921]), (8076, [7948, 921]), (8077, [7949, 921]), (8078, [7950, 921]),
   (8079, [7951, 921]), (8080, [7976, 921]), (8081, [7977, 921]), (8082, [7978, 921]), (8083, [7979, 921]),
   (8084, [7980, 921]), (8085, [7981, 921]), (8086, [7982, 921]), (8087, [7983, 921]), (8088, [7976, 921]),
   (8089, [7977, 921]), (8090, [7978, 921]), (8091, [7979, 921]), (8092, [7980, 921]), (8093, [7981, 921]),
   (8094, [7982, 921]), (8095, [7983, 921]), (8096, [8040, 921]), (8097, [8041, 921]), (8098, [8042, 921]),
   (8099, [8043, 921]), (8100, [8044, 921]), (8101, [8045, 921]), (8102, [8046, 921]), (8103, [8047, 921]),
   (8104, [8040, 921]), (8105, [8041, 921]), (8106, [8042, 921]), (8107, [8043, 921]), (8108, [8044, 921]),
   (8109, [8045, 921]), (8110, [8046, 921]), (8111, [8047, 921]), (8114, [8122, 921]), (8115, [913, 921]),
   (8116, [902, 921]), (8118, [913, 834]), (8119, [913, 834, 921]), (8124, [913, 921]), (8130, [8138, 921]),
   (8131, [919, 921]), (8132, [905, 921]), (8134, [919, 834]), (8135, [919, 834, 921]), (8140, [919, 921]),
   (8146, [921, 776, 768]), (8147, [921, 776, 769]), (8150, [921, 834]), (8151, [921, 776, 834]), (8162, [933, 776, 768]),
   (8163, [933, 776, 769]), (8164, [929, 787]), (8166, [933, 834]), (8167, [933, 776, 834]), (8178, [8186, 921]),
   (8179, [937, 921]), (8180, [911, 921]), (8182, [937, 834]), (8183, [937, 834, 921]), (8188, [937, 921]),
   (64256, [70, 70]), (64257, [70, 73]), (64258, [70, 76]), (64259, [70, 70, 73]), (64260, [70, 70, 76]),
   (64261, [83, 84]), (64262, [83, 84]), (64275, [1348, 1350]), (64276, [1348, 1333]), (64277, [1348, 1339]),
   (64278, [1358, 1350]), (64279, [1348, 1341])]

/-- The string `String.fromCharCode(c).toUpperCase()` for one code unit `c`. -/
def toUpperCase (c : Nat) : JSString :=
  match upperSpecial.lookup c with
  | some us => us
  | none =>
    match upperRanges.find? (fun r => r.1 ≤ c && c ≤ r.2.1 && (c - r.1) % r.2.2.1 == 0) with
    | some r => [r.2.2.2 + (c - r.1)]
    | none => [c]

/-! ## NameTransformer -/

/-- The reducer `(acc, part) => acc + part[0].toUpperCase() + part.slice(1) + "Icon"`.
On an empty `part` the unit `part[0]` is `undefined` and the call throws a
TypeError: `none`. -/
def reducer (acc part : JSString) : Option JSString :=
  match part with
  | [] => none
  | c :: _ => some (acc ++ toUpperCase c ++ part.drop 1 ++ js "Icon")

/-- The function `toCamelCaseFromSeparators` of `src/index.js`, lines 18 to 30. -/
def toCamelCaseFromSeparators (baseName : JSString) : Option JSString :=
  let parts := (split (trim baseName)).filter (fun p => !p.isEmpty)
  if parts.length ≤ 1 then some baseName
  else parts.foldlM reducer []

/-- The fragments of a string in the words of the specification: split at every
whitespace or hyphen unit and discard the empty pieces. -/
def fragments (s : JSString) : List JSString :=
  (s.splitOnP isSeparator).filter (fun p => p ≠ [])

/-- The capitalised fragment in the words of the specification: the first
character uppercased, the remainder unchanged. -/
def cap : JSString → JSString
  | [] => []
  | c :: rest => toUpperCase c ++ rest

/-! ## Paths and the directory

Every path the program handles is `folderPath` joined with an entry name, so a
path is represented by that name. Names are directory entry names: not empty,
without `/`, and neither `.` nor `..`; the path functions are modelled on such
names (POSIX flavour of `node:path`). -/

/-- The call `path.extname(p)`: from the last `.` to the end, and empty when
there is no `.`, when the only `.` is the first unit, or when `p` is `..`. -/
def extname (p : JSString) : JSString :=
  let k := p.reverse.indexOf 46
  if p.length ≤ k then []
  else if p.length - 1 - k = 0 then []
  else if p = [46, 46] then []
  else p.drop (p.length - 1 - k)

/-- The call `path.basename(p, suffix)`: `p` without `suffix` when `suffix`
is a non-empty proper ending of `p`, empty when they are equal, else `p`. -/
def basename (p suffix : JSString) : JSString :=
  if suffix.length = 0 ∨ p.length < suffix.length then p
  else if suffix = p then []
  else if suffix.isSuffixOf p then p.take (p.length - suffix.length)
  else p

/-- What `stat` can report about a file that is not a symbolic link. -/
inductive NodeType where
  | file
  | directory
  | other
  deriving DecidableEq, Repr

/-- The type of a directory entry as `lstat` and `readdir` see it: a node of
its own, or a symbolic link together with the type of the node it finally
resolves to (`none` for a dangling link). -/
inductive EntryType where
  | node (t : NodeType)
  | symlink (target : Option NodeType)
  deriving DecidableEq, Repr

/-- One directory entry (a `Dirent`). -/
structure Entry where
  name : JSString
  type : EntryType
  deriving DecidableEq, Repr

/-- The directory `folderPath`: its entries in the order `readdir` lists them. -/
abbrev Dir := List Entry

/-- The method `Dirent.isFile()` and `Stats.isFile()` after `lstat`: true for a
regular file only, a symbolic link is not followed. -/
def EntryType.isFile (t : EntryType) : Bool :=
  t == EntryType.node NodeType.file

/-- What `Stats.isFile()` would answer after `stat`, which follows links. -/
def EntryType.isFileFollowingLinks (t : EntryType) : Bool :=
  t == EntryType.node NodeType.file || t == EntryType.symlink (some NodeType.file)

/-- The call `fs.lstat(path.join(folderPath, name))`; `none` when it rejects. -/
def lstat (dir : Dir) (name : JSString) : Option EntryType :=
  (dir.find? (fun e => e.name == name)).map (fun e => e.type)

/-- Whether `fs.access(path.join(folderPath, name))` resolves. It follows
symbolic links, so it rejects on a dangling one. -/
def access (dir : Dir) (name : JSString) : Bool :=
  dir.any (fun e => e.name == name && e.type != EntryType.symlink none)

/-- The names of the directory on which the existence probe succeeds. -/
def existing (dir : Dir) : List JSString :=
  (dir.filter (fun e => e.type != EntryType.symlink none)).map (fun e => e.name)

/-! ## UniqueNameResolver -/

/-- Decimal digits of `n` as code units, least significant first. -/
def digitsRev : Nat → Nat → List Nat
  | 0, _ => []
  | fuel + 1, n => if n < 10 then [48 + n] else (48 + n % 10) :: digitsRev fuel (n / 10)

/-- The template substitution of the counter `i`: its decimal numeral, which is
what JavaScript prints for every integer below 10^21. -/
def numberToString (i : Nat) : JSString :=
  (digitsRev (i + 1) i).reverse

/-- The loop of `ensureUniqueTarget`, lines 39 to 47, with `fuel` bounding the
number of probes; `none` when the fuel runs out. -/
def ensureUniqueTargetLoop (dir : Dir) (stem ext : JSString) :
    Nat → JSString → Nat → Option JSString
  | 0, _, _ => none
  | fuel + 1, candidate, i =>
    if access dir candidate then
      ensureUniqueTargetLoop dir stem ext fuel (stem ++ js "-" ++ numberToString i ++ ext) (i + 1)
    else some candidate

/-- The function `ensureUniqueTarget` of `src/index.js`, lines 32 to 48. -/
def ensureUniqueTarget (fuel : Nat) (dir : Dir) (desiredName : JSString) : Option JSString :=
  let ext := extname desiredName
  let stem := basename desiredName ext
  ensureUniqueTargetLoop dir stem ext fuel desiredName 2

/-- The sequence of names the resolver probes: `desiredName` at index 0, then
the stem, `-`, the counter `k + 1` and the extension at index `k`. -/
def candidateAt (desiredName : JSString) : Nat → JSString
  | 0 => desiredName
  | k + 1 => basename desiredName (extname desiredName) ++ js "-" ++ numberToString (k + 2) ++
      extname desiredName

/-! ## RenamePlanner/Executor -/

/-- The function `isFile` of `src/index.js`, lines 50 to 53. -/
def isFile (dir : Dir) (p : JSString) : Option Bool :=
  (lstat dir p).map EntryType.isFile

/-- A plan entry; `from` and `to` of the source are `folderPath` joined with
`fromName` and `toName`. -/
structure RenamePlan where
  fromName : JSString
  toName : JSString
  deriving DecidableEq, Repr

deriving instance DecidableEq for Except

/-- Why a step did not produce a value: an exception, or the fuel ran out. -/
inductive Fault where
  | thrown
  | outOfFuel
  deriving DecidableEq, Repr

/-- The body of the scanning loop of `main`, lines 67 to 85, for one entry:
`none` when the entry is skipped by a `continue`. -/
def scanEntry (fuel : Nat) (dir : Dir) (entry : Entry) : Except Fault (Option RenamePlan) :=
  if !entry.type.isFile then .ok none
  else
    let fromName := entry.name
    match isFile dir fromName with
    | none => .error Fault.thrown
    | some false => .ok none
    | some true =>
      let ext := extname fromName
      let base := basename fromName ext
      match toCamelCaseFromSeparators base with
      | none => .error Fault.thrown
      | some newBase =>
        let desiredName := newBase ++ ext
        if desiredName = fromName then .ok none
        else
          match ensureUniqueTarget fuel dir desiredName with
          | none => .error Fault.outOfFuel
          | some uniqueName => .ok (some ⟨fromName, uniqueName⟩)

/-- The scanning loop of `main`, lines 66 to 86, over the remaining entries. -/
def scanLoop (fuel : Nat) (dir : Dir) : List Entry → List RenamePlan →
    Except Fault (List RenamePlan)
  | [], plans => .ok plans
  | entry :: rest, plans =>
    match scanEntry fuel dir entry with
    | .error f => .error f
    | .ok none => scanLoop fuel dir rest plans
    | .ok (some p) => scanLoop fuel dir rest (plans ++ [p])

/-- The plan `main` builds, lines 62 to 86. -/
def buildPlans (fuel : Nat) (dir : Dir) : Except Fault (List RenamePlan) :=
  scanLoop fuel dir dir []

/-- The call `fs.rename` inside the folder; `none` when it rejects: the source
is missing, or the target exists and one of the two is a directory (the
content of a directory is not modelled, so a directory is never replaced).
Any other existing target is replaced. -/
def rename (dir : Dir) (fromName toName : JSString) : Option Dir :=
  match dir.find? (fun e => e.name == fromName) with
  | none => none
  | some src =>
    if fromName = toName then some dir
    else
      match dir.find? (fun e => e.name == toName) with
      | some dst =>
        if src.type = EntryType.node NodeType.directory ∨
            dst.type = EntryType.node NodeType.directory then none
        else some ((dir.filter (fun e => e.name != toName)).map
          (fun e => if e.name = fromName then ⟨toName, e.type⟩ else e))
      | none => some (dir.map (fun e => if e.name = fromName then ⟨toName, e.type⟩ else e))

/-- What one run leaves behind: the lines on standard output, the `fs.rename`
calls made, the directory afterwards and the exit status. -/
structure Run where
  stdout : List JSString
  renames : List (JSString × JSString)
  dir : Dir
  exitCode : Nat
  deriving DecidableEq, Repr

/-- The renaming loop of `main`, lines 101 to 103: stops at the first call
that rejects. -/
def renameAll : List RenamePlan → List (JSString × JSString) → Dir → Run
  | [], done, dir => ⟨[], done, dir, 0⟩
  | p :: ps, done, dir =>
    match rename dir p.fromName p.toName with
    | none => ⟨[], done ++ [(p.fromName, p.toName)], dir, 1⟩
    | some dir2 => renameAll ps (done ++ [(p.fromName, p.toName)]) dir2

/-- The line printed for one plan entry, lines 94 to 96. -/
def planLine (isDryRun : Bool) (p : RenamePlan) : JSString :=
  p.fromName ++ js "  ->  " ++ p.toName ++ (if isDryRun then js "  (dry-run)" else js "")

/-- The function `main` of `src/index.js`, lines 55 to 104, on a `folderPath`
that names a directory; `none` when the fuel of the resolver runs out. -/
def main (isDryRun : Bool) (fuel : Nat) (dir : Dir) : Option Run :=
  match buildPlans fuel dir with
  | .error Fault.outOfFuel => none
  | .error Fault.thrown => some ⟨[], [], dir, 1⟩
  | .ok plans =>
    if plans.length = 0 then some ⟨[js "No files to rename."], [], dir, 0⟩
    else
      let out := plans.map (planLine isDryRun)
      if isDryRun then some ⟨out, [], dir, 0⟩
      else
        let r := renameAll plans [] dir
        some ⟨out, r.renames, r.dir, r.exitCode⟩

/-! ## Auxiliary definitions for the proofs -/

/-- Whether no code unit from `lo` to `hi` is a separator. -/
def clearOf (lo hi : Nat) : Bool :=
  (hi < 9 || 13 < lo) && (hi < 32 || 32 < lo) && (hi < 45 || 45 < lo) &&
    (hi < 160 || 160 < lo) && (hi < 5760 || 5760 < lo) && (hi < 8192 || 8202 < lo) &&
    (hi < 8232 || 8233 < lo) && (hi < 8239 || 8239 < lo) && (hi < 8287 || 8287 < lo) &&
    (hi < 12288 || 12288 < lo) && (hi < 65279 || 65279 < lo)

/-- The number whose decimal digits, least significant first, are the given
code units. -/
def decodeDigits : List Nat → Nat
  | [] => 0
  | d :: ds => (d - 48) + 10 * decodeDigits ds

/-- The name the planner asks the resolver for: the transformed stem followed
by the original extension. -/
def desiredNameOf (fromName : JSString) : Option JSString :=
  (toCamelCaseFromSeparators (basename fromName (extname fromName))).map
    (fun newBase => newBase ++ extname fromName)

/-- Whether the scanning loop records a plan entry for `entry`. -/
def wanted (dir : Dir) (entry : Entry) : Bool :=
  entry.type.isFile && (isFile dir entry.name == some true) &&
    (desiredNameOf entry.name != some entry.name)

/-! ## Facts about splitting -/

theorem splitFrom_ne_nil (b : Bool) (s : JSString) : splitFrom b s ≠ [] := by
  induction s generalizing b with
  | nil => simp [splitFrom]
  | cons c cs ih =>
    simp only [splitFrom]
    split_ifs
    · exact ih true
    · simp
    · split <;> simp

theorem splitFrom_of_not_separator (b : Bool) (c : Nat) (cs : JSString)
    (hc : isSeparator c = false) :
    splitFrom b (c :: cs) = (splitFrom false cs).modifyHead (fun p => c :: p) := by
  simp only [splitFrom, hc]
  cases h : splitFrom false cs with
  | nil => exact absurd h (splitFrom_ne_nil false cs)
  | cons p ps => simp

/-- The pieces of `split` and the pieces cut at every single separator agree
on the first piece and, up to empty pieces, on the others. -/
theorem splitFrom_splitOnP (s : JSString) :
    ((splitFrom false s).head? = (s.splitOnP isSeparator).head? ∧
      (splitFrom false s).tail.filter (fun p => !p.isEmpty) =
        (s.splitOnP isSeparator).tail.filter (fun p => !p.isEmpty)) ∧
    (splitFrom true s).filter (fun p => !p.isEmpty) =
      (s.splitOnP isSeparator).filter (fun p => !p.isEmpty) := by
  induction s with
  | nil => simp [splitFrom]
  | cons c cs ih =>
    obtain ⟨⟨ihh, iht⟩, ihr⟩ := ih
    rw [List.splitOnP_cons]
    by_cases hc : isSeparator c = true
    · simp [splitFrom, hc, ihr]
    · have hc2 : isSeparator c = false := by simpa using hc
      rw [splitFrom_of_not_separator false c cs hc2, splitFrom_of_not_separator true c cs hc2]
      simp only [hc2, Bool.false_eq_true, if_false]
      have h1 := splitFrom_ne_nil false cs
      have h2 : cs.splitOnP isSeparator ≠ [] := List.splitOnP_ne_nil _ _
      cases h : splitFrom false cs with
      | nil => exact absurd h h1
      | cons p ps =>
        cases h3 : cs.splitOnP isSeparator with
        | nil => exact absurd h3 h2
        | cons q qs =>
          rw [h, h3] at ihh iht
          simp at ihh iht
          subst ihh
          simp [iht]

theorem filter_split_eq_fragments (s : JSString) :
    (split s).filter (fun p => !p.isEmpty) = fragments s := by
  have h := (splitFrom_splitOnP s).1
  have h1 := splitFrom_ne_nil false s
  have h2 : s.splitOnP isSeparator ≠ [] := List.splitOnP_ne_nil _ _
  have hf : ∀ l : List JSString, l.filter (fun p => p ≠ []) = l.filter (fun p => !p.isEmpty) := by
    intro l
    apply List.filter_congr
    intro x _
    cases x <;> simp
  unfold split fragments
  rw [hf]
  cases h3 : splitFrom false s with
  | nil => exact absurd h3 h1
  | cons p ps =>
    cases h4 : s.splitOnP isSeparator with
    | nil => exact absurd h4 h2
    | cons q qs =>
      rw [h3, h4] at h
      simp at h
      obtain ⟨hh, ht⟩ := h
      subst hh
      simp [List.filter_cons, ht]

theorem fragments_ne_nil (s : JSString) : ∀ f ∈ fragments s, f ≠ [] := by
  intro f hf
  simpa [fragments] using (List.mem_filter.mp hf).2

theorem splitOnP_no_separator (s : JSString) :
    ∀ f ∈ s.splitOnP isSeparator, ∀ c ∈ f, isSeparator c = false := by
  induction s with
  | nil => simp
  | cons a as ih =>
    intro f hf c hc
    rw [List.splitOnP_cons] at hf
    by_cases ha : isSeparator a = true
    · simp [ha] at hf
      rcases hf with rfl | hf
      · simp at hc
      · exact ih f hf c hc
    · have ha2 : isSeparator a = false := by simpa using ha
      simp only [ha2, Bool.false_eq_true, if_false] at hf
      have h2 : as.splitOnP isSeparator ≠ [] := List.splitOnP_ne_nil _ _
      cases h3 : as.splitOnP isSeparator with
      | nil => exact absurd h3 h2
      | cons q qs =>
        rw [h3] at hf ih
        simp at hf
        rcases hf with rfl | hf
        · simp at hc
          rcases hc with rfl | hc
          · exact ha2
          · exact ih q (by simp) c hc
        · exact ih f (by simp [hf]) c hc

theorem fragments_no_separator (s : JSString) :
    ∀ f ∈ fragments s, ∀ c ∈ f, isSeparator c = false := by
  intro f hf
  exact splitOnP_no_separator s f (List.mem_filter.mp hf).1

/-! ## Facts about the transformer -/

theorem foldlM_reducer (parts : List JSString) (h : ∀ p ∈ parts, p ≠ []) (acc : JSString) :
    parts.foldlM reducer acc =
      some (acc ++ (parts.map (fun f => cap f ++ js "Icon")).flatten) := by
  induction parts generalizing acc with
  | nil => simp
  | cons p ps ih =>
    cases p with
    | nil => exact absurd rfl (h [] (by simp))
    | cons c rest =>
      have hps : ∀ q ∈ ps, q ≠ [] := fun q hq => h q (by simp [hq])
      simp [List.foldlM, reducer, ih hps, cap]

theorem toCamelCaseFromSeparators_eq (baseName : JSString) :
    toCamelCaseFromSeparators baseName =
      if (fragments (trim baseName)).length ≤ 1 then some baseName
      else some (((fragments (trim baseName)).map (fun f => cap f ++ js "Icon")).flatten) := by
  unfold toCamelCaseFromSeparators
  simp only [filter_split_eq_fragments]
  split_ifs with h
  · rfl
  · simpa using foldlM_reducer _ (fragments_ne_nil (trim baseName)) []

theorem separator_cases (u : Nat) (h : isSeparator u = true) :
    (9 ≤ u ∧ u ≤ 13) ∨ u = 32 ∨ u = 45 ∨ u = 160 ∨ u = 5760 ∨ (8192 ≤ u ∧ u ≤ 8202) ∨
      u = 8232 ∨ u = 8233 ∨ u = 8239 ∨ u = 8287 ∨ u = 12288 ∨ u = 65279 := by
  simp [isSeparator, isWhiteSpace] at h
  omega

theorem mem_of_lookup {α : Type} [BEq α] [LawfulBEq α] {β : Type} (a : α) (b : β) :
    ∀ l : List (α × β), l.lookup a = some b → (a, b) ∈ l := by
  intro l
  induction l with
  | nil => simp
  | cons x xs ih =>
    obtain ⟨k, v⟩ := x
    intro h
    by_cases hk : a == k
    · have : a = k := by simpa using hk
      simp [List.lookup, hk] at h
      simp [this, h]
    · simp [List.lookup, hk] at h
      simp [ih h]

theorem upperSpecial_clear :
    ∀ e ∈ upperSpecial, ∀ u ∈ e.2, isSeparator u = false := by
  decide

theorem clearOf_sound (lo hi u : Nat) (h : clearOf lo hi = true) (h1 : lo ≤ u) (h2 : u ≤ hi) :
    isSeparator u = false := by
  cases hs : isSeparator u with
  | false => rfl
  | true =>
    have hc := separator_cases u hs
    simp [clearOf] at h
    omega

set_option maxRecDepth 100000 in
theorem upperRanges_clear :
    ∀ r ∈ upperRanges, clearOf r.2.2.2 (r.2.2.2 + (r.2.1 - r.1)) = true := by
  decide

theorem toUpperCase_no_separator (c : Nat) (hc : isSeparator c = false) :
    ∀ u ∈ toUpperCase c, isSeparator u = false := by
  intro u hu
  unfold toUpperCase at hu
  split at hu
  · next us hl => exact upperSpecial_clear _ (mem_of_lookup c us _ hl) u hu
  · split at hu
    · next r hr =>
      have hm := List.mem_of_find?_eq_some hr
      have hp := List.find?_some hr
      simp at hp hu
      subst hu
      exact clearOf_sound _ _ _ (upperRanges_clear r hm) (by omega) (by omega)
    · simp at hu
      subst hu
      exact hc
theorem trim_eq_self (s : JSString) (h : ∀ u ∈ s, isWhiteSpace u = false) : trim s = s := by
  have h1 : ∀ l : JSString, (∀ u ∈ l, isWhiteSpace u = false) → l.dropWhile isWhiteSpace = l := by
    intro l hl
    cases l with
    | nil => rfl
    | cons a as => simp [List.dropWhile, hl a (by simp)]
  unfold trim
  rw [h1 s h, h1 s.reverse (fun u hu => h u (List.mem_reverse.mp hu)), List.reverse_reverse]

theorem fragments_length_le_one (s : JSString) (h : ∀ u ∈ s, isSeparator u = false) :
    (fragments (trim s)).length ≤ 1 := by
  have hw : ∀ u ∈ s, isWhiteSpace u = false := by
    intro u hu
    have := h u hu
    simp only [isSeparator, Bool.or_eq_false_iff] at this
    exact this.1
  rw [trim_eq_self s hw]
  unfold fragments
  rw [List.splitOnP_eq_single isSeparator s (fun u hu => by simp [h u hu])]
  exact List.length_filter_le _ _

theorem camel_no_separator (s : JSString) :
    ∀ u ∈ ((fragments s).map (fun f => cap f ++ js "Icon")).flatten, isSeparator u = false := by
  intro u hu
  simp only [List.mem_flatten, List.mem_map] at hu
  obtain ⟨l, ⟨f, hf, rfl⟩, hul⟩ := hu
  rcases List.mem_append.mp hul with h | h
  · cases f with
    | nil => simp [cap] at h
    | cons c rest =>
      have hsep := fragments_no_separator s _ hf
      rcases List.mem_append.mp h with h | h
      · exact toUpperCase_no_separator c (hsep c (by simp)) u h
      · exact hsep u (by simp [h])
  · have : ∀ v ∈ js "Icon", isSeparator v = false := by decide
    exact this u h

theorem length_camel (frags : List JSString)
    (h : ∀ f ∈ frags, ∀ c ∈ f.head?, (toUpperCase c).length = 1)
    (hne : ∀ f ∈ frags, f ≠ []) :
    ((frags.map (fun f => cap f ++ js "Icon")).flatten).length =
      (frags.map List.length).sum + 4 * frags.length := by
  induction frags with
  | nil => simp
  | cons f fs ih =>
    have ih2 := ih (fun g hg => h g (by simp [hg])) (fun g hg => hne g (by simp [hg]))
    cases f with
    | nil => exact absurd rfl (hne [] (by simp))
    | cons c rest =>
      have hc := h (c :: rest) (by simp) c rfl
      have hi : (js "Icon").length = 4 := by decide
      have hcap : cap (c :: rest) = toUpperCase c ++ rest := rfl
      simp only [List.map_cons, List.flatten_cons, List.length_append, List.sum_cons,
        List.length_cons, hcap, ih2, hc, hi]
      omega

theorem camel_of_two_le (baseName : JSString) (h : 2 ≤ (fragments (trim baseName)).length) :
    toCamelCaseFromSeparators baseName =
      some (((fragments (trim baseName)).map (fun f => cap f ++ js "Icon")).flatten) := by
  rw [toCamelCaseFromSeparators_eq, if_neg (by omega)]

theorem camel_of_le_one (baseName : JSString) (h : (fragments (trim baseName)).length ≤ 1) :
    toCamelCaseFromSeparators baseName = some baseName := by
  rw [toCamelCaseFromSeparators_eq, if_pos h]

/-! ## The claims about the transformer -/

/-- C1: a basename whose trimmed form has n >= 2 fragments is mapped to the
concatenation, in fragment order and without separator, of every fragment
capitalised and followed by `Icon`; so `arrow-left-bold` gives
`ArrowIconLeftIconBoldIcon` and `home icon` gives `HomeIconIconIcon`. -/
theorem toCamelCaseFromSeparators_multi :
    (∀ baseName : JSString, 2 ≤ (fragments (trim baseName)).length →
      toCamelCaseFromSeparators baseName =
        some (((fragments (trim baseName)).map (fun f => cap f ++ js "Icon")).flatten)) ∧
    toCamelCaseFromSeparators (js "arrow-left-bold") = some (js "ArrowIconLeftIconBoldIcon") ∧
    toCamelCaseFromSeparators (js "home icon") = some (js "HomeIconIconIcon") := by
  exact ⟨camel_of_two_le, by decide, by decide⟩

theorem toCamelCaseFromSeparators_multi_witness :
    2 ≤ (fragments (trim (js "arrow-left-bold"))).length ∧
    toCamelCaseFromSeparators (js "arrow-left-bold") =
      some (((fragments (trim (js "arrow-left-bold"))).map
        (fun f => cap f ++ js "Icon")).flatten) :=
  ⟨by decide, toCamelCaseFromSeparators_multi.1 (js "arrow-left-bold") (by decide)⟩

/-- C2: a basename whose trimmed form has at most one fragment is returned
unchanged, so transforming it twice is the same as transforming it once. -/
theorem toCamelCaseFromSeparators_single (baseName : JSString)
    (h : (fragments (trim baseName)).length ≤ 1) :
    toCamelCaseFromSeparators baseName = some baseName ∧
    (toCamelCaseFromSeparators baseName).bind toCamelCaseFromSeparators =
      toCamelCaseFromSeparators baseName := by
  have h1 := camel_of_le_one baseName h
  exact ⟨h1, by simp [h1]⟩

theorem toCamelCaseFromSeparators_single_witness :
    (fragments (trim (js " settings"))).length ≤ 1 ∧
    toCamelCaseFromSeparators (js " settings") = some (js " settings") ∧
    (toCamelCaseFromSeparators (js " settings")).bind toCamelCaseFromSeparators =
      toCamelCaseFromSeparators (js " settings") :=
  ⟨by decide, toCamelCaseFromSeparators_single (js " settings") (by decide)⟩

/-- C9, as the code has it: the length law fails when the first unit of a
fragment has an uppercase form of several units; `ßa b` has fragments of
lengths 2 and 1, so the law gives 11, and the result `SSaIconBIcon` has
length 12. -/
theorem length_law_fails :
    fragments (trim (js "ßa b")) = [js "ßa", js "b"] ∧
    toCamelCaseFromSeparators (js "ßa b") = some (js "SSaIconBIcon") ∧
    (js "SSaIconBIcon").length = 12 ∧
    ((fragments (trim (js "ßa b"))).map List.length).sum +
      4 * (fragments (trim (js "ßa b"))).length = 11 := by
  decide

/-- C9, amended: for a basename with n >= 2 fragments, each of whose first
code units has an uppercase form of one code unit, the result has length
len(f1) + ... + len(fn) + 4 * n. -/
theorem toCamelCaseFromSeparators_length (baseName : JSString)
    (h2 : 2 ≤ (fragments (trim baseName)).length)
    (h1 : ∀ f ∈ fragments (trim baseName), ∀ c ∈ f.head?, (toUpperCase c).length = 1) :
    ∃ out, toCamelCaseFromSeparators baseName = some out ∧
      out.length = ((fragments (trim baseName)).map List.length).sum +
        4 * (fragments (trim baseName)).length := by
  refine ⟨_, camel_of_two_le baseName h2, ?_⟩
  exact length_camel _ h1 (fragments_ne_nil _)

theorem toCamelCaseFromSeparators_length_witness :
    2 ≤ (fragments (trim (js "home icon"))).length ∧
    (∀ f ∈ fragments (trim (js "home icon")), ∀ c ∈ f.head?, (toUpperCase c).length = 1) ∧
    ∃ out, toCamelCaseFromSeparators (js "home icon") = some out ∧
      out.length = ((fragments (trim (js "home icon"))).map List.length).sum +
        4 * (fragments (trim (js "home icon"))).length :=
  ⟨by decide, by decide,
    toCamelCaseFromSeparators_length (js "home icon") (by decide) (by decide)⟩

/-- C10: the transformer is idempotent on every basename: it always returns
a string, and that string is returned unchanged when transformed again. -/
theorem toCamelCaseFromSeparators_idempotent (x : JSString) :
    ∃ y, toCamelCaseFromSeparators x = some y ∧ toCamelCaseFromSeparators y = some y := by
  by_cases h : (fragments (trim x)).length ≤ 1
  · have := camel_of_le_one x h
    exact ⟨x, this, this⟩
  · refine ⟨_, camel_of_two_le x (by omega), ?_⟩
    exact camel_of_le_one _ (fragments_length_le_one _ (camel_no_separator (trim x)))

/-! ## Facts about the resolver -/

theorem decodeDigits_digitsRev (fuel n : Nat) (h : n < fuel) :
    decodeDigits (digitsRev fuel n) = n := by
  induction fuel generalizing n with
  | zero => omega
  | succ f ih =>
    unfold digitsRev
    split_ifs with h10
    · simp [decodeDigits]
    · have := ih (n / 10) (by omega)
      simp only [decodeDigits, this]
      omega

theorem numberToString_injective (a b : Nat) (h : numberToString a = numberToString b) :
    a = b := by
  unfold numberToString at h
  have h2 := List.reverse_injective h
  have ha := decodeDigits_digitsRev (a + 1) a (by omega)
  have hb := decodeDigits_digitsRev (b + 1) b (by omega)
  rw [h2] at ha
  omega

theorem candidateAt_succ_injective (d : JSString) (i j : Nat)
    (h : candidateAt d (i + 1) = candidateAt d (j + 1)) : i = j := by
  simp only [candidateAt, List.append_assoc] at h
  have h1 := List.append_cancel_left h
  have h2 := List.append_cancel_left h1
  have h3 := List.append_cancel_right h2
  have := numberToString_injective _ _ h3
  omega

theorem access_iff_mem_existing (dir : Dir) (n : JSString) :
    access dir n = true ↔ n ∈ existing dir := by
  simp only [access, existing, List.any_eq_true, List.mem_map, List.mem_filter]
  constructor
  · rintro ⟨e, he, h⟩
    simp only [Bool.and_eq_true, beq_iff_eq] at h
    exact ⟨e, ⟨he, h.2⟩, h.1⟩
  · rintro ⟨e, ⟨he, h⟩, rfl⟩
    exact ⟨e, he, by simp [h]⟩

theorem access_eq_false_iff (dir : Dir) (n : JSString) :
    access dir n = false ↔ n ∉ existing dir := by
  rw [← access_iff_mem_existing]
  simp

theorem ensureUniqueTargetLoop_first_absent (dir : Dir) (d : JSString) (k : Nat) :
    ∀ fuel j, (∀ m, m < k → access dir (candidateAt d (j + m)) = true) →
      access dir (candidateAt d (j + k)) = false → k < fuel →
      ensureUniqueTargetLoop dir (basename d (extname d)) (extname d) fuel
        (candidateAt d j) (j + 2) = some (candidateAt d (j + k)) := by
  induction k with
  | zero =>
    intro fuel j _ hk hf
    cases fuel with
    | zero => omega
    | succ f =>
      simp only [Nat.add_zero] at hk
      simp [ensureUniqueTargetLoop, hk]
  | succ k ih =>
    intro fuel j hm hk hf
    cases fuel with
    | zero => omega
    | succ f =>
      have h0 := hm 0 (by omega)
      simp only [Nat.add_zero] at h0
      simp only [ensureUniqueTargetLoop, h0, if_true]
      have := ih f (j + 1) (fun m hlt => by
        have := hm (m + 1) (by omega)
        rwa [show j + (m + 1) = j + 1 + m by omega] at this)
        (by rwa [show j + (k + 1) = j + 1 + k by omega] at hk) (by omega)
      rw [show j + (k + 1) = j + 1 + k by omega, show j + 2 + 1 = j + 1 + 2 by omega]
      exact this

theorem ensureUniqueTarget_of_first_absent (dir : Dir) (d : JSString) (k fuel : Nat)
    (hm : ∀ m, m < k → candidateAt d m ∈ existing dir) (hk : candidateAt d k ∉ existing dir)
    (hf : k < fuel) : ensureUniqueTarget fuel dir d = some (candidateAt d k) := by
  have := ensureUniqueTargetLoop_first_absent dir d k fuel 0
    (fun m hlt => by simpa using (access_iff_mem_existing dir _).mpr (hm m hlt))
    (by simpa using (access_eq_false_iff dir _).mpr hk) hf
  simpa [ensureUniqueTarget, candidateAt] using this

/-- Some probed name among the first `dir.length + 2` is absent. -/
theorem exists_absent_candidate (dir : Dir) (d : JSString) :
    ∃ k, k ≤ dir.length + 1 ∧ candidateAt d k ∉ existing dir := by
  by_contra hcon
  push_neg at hcon
  let L := (List.range (dir.length + 1)).map (fun i => candidateAt d (i + 1))
  have hnd : L.Nodup :=
    (List.nodup_range _).map (fun i j h => candidateAt_succ_injective d i j h)
  have hsub : L ⊆ existing dir := by
    intro x hx
    obtain ⟨i, hi, rfl⟩ := List.mem_map.mp hx
    exact hcon (i + 1) (by have := List.mem_range.mp hi; omega)
  have h1 : L.length ≤ (existing dir).length :=
    (List.subperm_of_subset hnd hsub).length_le
  have h2 : (existing dir).length ≤ dir.length := by
    simp only [existing, List.length_map]
    exact List.length_filter_le _ _
  have h3 : L.length = dir.length + 1 := by simp [L]
  omega

theorem first_absent_candidate (dir : Dir) (d : JSString) :
    ∃ k, k ≤ dir.length + 1 ∧ candidateAt d k ∉ existing dir ∧
      ∀ m, m < k → candidateAt d m ∈ existing dir := by
  classical
  have hex : ∃ k, candidateAt d k ∉ existing dir := by
    obtain ⟨k, _, hk⟩ := exists_absent_candidate dir d
    exact ⟨k, hk⟩
  obtain ⟨k0, hk0, hk0a⟩ := exists_absent_candidate dir d
  refine ⟨Nat.find hex, ?_, Nat.find_spec hex, ?_⟩
  · exact le_trans (Nat.find_min' hex hk0a) hk0
  · intro m hm
    by_contra hcon
    exact Nat.find_min hex hm hcon

/-! ## The claim about the resolver -/

/-- C3, as the code has it: in a directory whose only entry is a dangling
symbolic link `AIconBIcon.png`, the name `AIconBIcon-2.png` of the sequence is
absent and `AIconBIcon.png` is an entry name, yet for the desired name
`AIconBIcon.png` the resolver returns `AIconBIcon.png`: the probe follows the
link and rejects, so the returned name is neither the first absent name nor
free of a collision with an entry. -/
theorem ensureUniqueTarget_returns_dangling_link :
    candidateAt (js "AIconBIcon.png") 1 = js "AIconBIcon-2.png" ∧
    candidateAt (js "AIconBIcon.png") 1 ∉
      ([⟨js "AIconBIcon.png", .symlink none⟩] : Dir).map (fun e => e.name) ∧
    candidateAt (js "AIconBIcon.png") 0 ∈
      ([⟨js "AIconBIcon.png", .symlink none⟩] : Dir).map (fun e => e.name) ∧
    ensureUniqueTarget 3 [⟨js "AIconBIcon.png", .symlink none⟩] (js "AIconBIcon.png") =
      some (js "AIconBIcon.png") ∧
    js "AIconBIcon.png" ∈
      ([⟨js "AIconBIcon.png", .symlink none⟩] : Dir).map (fun e => e.name) := by
  decide

/-- C3, amended: with the directory taken as the fixed set of the entry names
on which the existence probe succeeds (the names of all entries other than
dangling symbolic links), if some name of the sequence desiredName, s-2e,
s-3e, ... is not in that set, then `ensureUniqueTarget` returns, for every
fuel that allows the probes, the first name of the sequence that is not in it;
so the returned name is never the name of an entry the probe can see. -/
theorem ensureUniqueTarget_first_absent (dir : Dir) (desiredName : JSString)
    (h : ∃ k, candidateAt desiredName k ∉ existing dir) :
    ∃ k, candidateAt desiredName k ∉ existing dir ∧
      (∀ m, m < k → candidateAt desiredName m ∈ existing dir) ∧
      ∀ fuel, k < fuel →
        ensureUniqueTarget fuel dir desiredName = some (candidateAt desiredName k) := by
  classical
  refine ⟨Nat.find h, Nat.find_spec h, ?_, ?_⟩
  · intro m hm
    by_contra hcon
    exact Nat.find_min h hm hcon
  · intro fuel hf
    refine ensureUniqueTarget_of_first_absent dir desiredName _ fuel ?_ (Nat.find_spec h) hf
    intro m hm
    by_contra hcon
    exact Nat.find_min h hm hcon

theorem ensureUniqueTarget_first_absent_witness :
    (∃ k, candidateAt (js "AIconBIcon.png") k ∉
      existing [⟨js "AIconBIcon.png", .node .file⟩, ⟨js "AIconBIcon-2.png", .node .file⟩]) ∧
    ∃ k, candidateAt (js "AIconBIcon.png") k ∉
        existing [⟨js "AIconBIcon.png", .node .file⟩, ⟨js "AIconBIcon-2.png", .node .file⟩] ∧
      (∀ m, m < k → candidateAt (js "AIconBIcon.png") m ∈
        existing [⟨js "AIconBIcon.png", .node .file⟩, ⟨js "AIconBIcon-2.png", .node .file⟩]) ∧
      ∀ fuel, k < fuel →
        ensureUniqueTarget fuel
          [⟨js "AIconBIcon.png", .node .file⟩, ⟨js "AIconBIcon-2.png", .node .file⟩]
          (js "AIconBIcon.png") = some (candidateAt (js "AIconBIcon.png") k) :=
  ⟨⟨2, by decide⟩, ensureUniqueTarget_first_absent _ _ ⟨2, by decide⟩⟩


/-! ## Facts about the planner -/

theorem toCamelCaseFromSeparators_total (x : JSString) :
    ∃ y, toCamelCaseFromSeparators x = some y := by
  rw [toCamelCaseFromSeparators_eq]
  split_ifs <;> exact ⟨_, rfl⟩

theorem find_name_of_mem (dir : Dir) (e : Entry) (he : e ∈ dir) :
    ∃ x, dir.find? (fun y => y.name == e.name) = some x := by
  cases h : dir.find? (fun y => y.name == e.name) with
  | some x => exact ⟨x, rfl⟩
  | none =>
    have := List.find?_eq_none.mp h e he
    simp at this

theorem find_name_of_mem_nodup (dir : Dir) (hnd : (dir.map (fun e => e.name)).Nodup)
    (e : Entry) (he : e ∈ dir) : dir.find? (fun y => y.name == e.name) = some e := by
  induction dir with
  | nil => simp at he
  | cons a as ih =>
    rw [List.map_cons, List.nodup_cons] at hnd
    by_cases ha : a.name = e.name
    · rw [List.find?_cons_of_pos _ (by simpa using ha)]
      rcases List.mem_cons.mp he with h | h
      · rw [h]
      · exact absurd (ha ▸ List.mem_map_of_mem (fun e => e.name) h) hnd.1
    · rw [List.find?_cons_of_neg _ (by simpa using ha)]
      rcases List.mem_cons.mp he with h | h
      · exact absurd (h ▸ rfl) ha
      · exact ih hnd.2 h

theorem isFile_of_mem_nodup (dir : Dir) (hnd : (dir.map (fun e => e.name)).Nodup)
    (e : Entry) (he : e ∈ dir) : isFile dir e.name = some e.type.isFile := by
  simp [isFile, lstat, find_name_of_mem_nodup dir hnd e he]

theorem wanted_of_nodup (dir : Dir) (hnd : (dir.map (fun e => e.name)).Nodup)
    (e : Entry) (he : e ∈ dir) :
    wanted dir e = (e.type.isFile && (desiredNameOf e.name != some e.name)) := by
  unfold wanted
  rw [isFile_of_mem_nodup dir hnd e he]
  cases e.type.isFile <;> simp

/-- What the loop body does for one entry of the directory. -/
theorem scanEntry_spec (fuel : Nat) (dir : Dir) (hf : dir.length + 2 ≤ fuel)
    (e : Entry) (he : e ∈ dir) :
    (wanted dir e = false ∧ scanEntry fuel dir e = .ok none) ∨
    (wanted dir e = true ∧ ∃ d k, desiredNameOf e.name = some d ∧
      candidateAt d k ∉ existing dir ∧ (∀ m, m < k → candidateAt d m ∈ existing dir) ∧
      scanEntry fuel dir e = .ok (some ⟨e.name, candidateAt d k⟩)) := by
  unfold scanEntry wanted
  cases hty : e.type.isFile with
  | false => left; simp
  | true =>
    obtain ⟨x, hx⟩ := find_name_of_mem dir e he
    have hif : isFile dir e.name = some x.type.isFile := by simp [isFile, lstat, hx]
    cases hxf : x.type.isFile with
    | false => left; simp [hif, hxf]
    | true =>
      obtain ⟨nb, hnb⟩ := toCamelCaseFromSeparators_total (basename e.name (extname e.name))
      have hd : desiredNameOf e.name = some (nb ++ extname e.name) := by
        simp [desiredNameOf, hnb]
      by_cases heq : nb ++ extname e.name = e.name
      · left
        simp [hif, hxf, hnb, hd, heq]
      · right
        obtain ⟨k, hk, habs, hpres⟩ := first_absent_candidate dir (nb ++ extname e.name)
        have hu := ensureUniqueTarget_of_first_absent dir (nb ++ extname e.name) k fuel
          hpres habs (by omega)
        refine ⟨by simp [hif, hxf, hd, heq], nb ++ extname e.name, k, hd, habs, hpres, ?_⟩
        simp [hif, hxf, hnb, heq, hu]

/-- What the scanning loop does over entries of the directory. -/
theorem scanLoop_spec (fuel : Nat) (dir : Dir) (hf : dir.length + 2 ≤ fuel) :
    ∀ (rest : List Entry) (acc : List RenamePlan), (∀ e ∈ rest, e ∈ dir) →
      ∃ plans, scanLoop fuel dir rest acc = .ok (acc ++ plans) ∧
        plans.map (fun p => p.fromName) = (rest.filter (wanted dir)).map (fun e => e.name) ∧
        ∀ p ∈ plans, ∃ d k, desiredNameOf p.fromName = some d ∧ p.toName = candidateAt d k ∧
          candidateAt d k ∉ existing dir ∧ ∀ m, m < k → candidateAt d m ∈ existing dir := by
  intro rest
  induction rest with
  | nil => intro acc _; exact ⟨[], by simp [scanLoop]⟩
  | cons e es ih =>
    intro acc hsub
    have hes : ∀ x ∈ es, x ∈ dir := fun x hx => hsub x (by simp [hx])
    rcases scanEntry_spec fuel dir hf e (hsub e (by simp)) with ⟨hw, hs⟩ | ⟨hw, d, k, hd, ha, hp, hs⟩
    · obtain ⟨plans, h1, h2, h3⟩ := ih acc hes
      exact ⟨plans, by simp [scanLoop, hs, h1], by simp [hw, h2], h3⟩
    · obtain ⟨plans, h1, h2, h3⟩ := ih (acc ++ [⟨e.name, candidateAt d k⟩]) hes
      refine ⟨⟨e.name, candidateAt d k⟩ :: plans, by simp [scanLoop, hs, h1], by simp [hw, h2], ?_⟩
      intro p hp2
      rcases List.mem_cons.mp hp2 with rfl | hp2
      · exact ⟨d, k, hd, rfl, ha, hp⟩
      · exact h3 p hp2

theorem buildPlans_spec (fuel : Nat) (dir : Dir) (hf : dir.length + 2 ≤ fuel) :
    ∃ plans, buildPlans fuel dir = .ok plans ∧
      plans.map (fun p => p.fromName) = (dir.filter (wanted dir)).map (fun e => e.name) ∧
      ∀ p ∈ plans, ∃ d k, desiredNameOf p.fromName = some d ∧ p.toName = candidateAt d k ∧
        candidateAt d k ∉ existing dir ∧ ∀ m, m < k → candidateAt d m ∈ existing dir := by
  simpa [buildPlans] using scanLoop_spec fuel dir hf dir [] (fun _ h => h)

/-! ## The claims about the planner -/

/-- C4: the plan built by `main` has, in listing order, exactly one entry for
each regular file whose reassembled name differs from its current name and no
entry for any other entry of the directory (which lists each name once); for
`home icon.png` and
`settings.png` the plan is the single entry
`home icon.png -> HomeIconIconIcon.png`. -/
theorem buildPlans_entries :
    (∀ dir : Dir, (dir.map (fun e => e.name)).Nodup → ∀ fuel, dir.length + 2 ≤ fuel →
      ∃ plans, buildPlans fuel dir = .ok plans ∧
        plans.map (fun p => p.fromName) =
          (dir.filter (fun e => e.type.isFile && (desiredNameOf e.name != some e.name))).map
            (fun e => e.name)) ∧
    buildPlans 4 [⟨js "home icon.png", .node .file⟩, ⟨js "settings.png", .node .file⟩] =
      .ok [⟨js "home icon.png", js "HomeIconIconIcon.png"⟩] := by
  refine ⟨?_, by decide⟩
  intro dir hnd fuel hf
  obtain ⟨plans, h1, h2, _⟩ := buildPlans_spec fuel dir hf
  refine ⟨plans, h1, ?_⟩
  rw [h2]
  congr 1
  exact List.filter_congr (fun e he => wanted_of_nodup dir hnd e he)

theorem buildPlans_entries_witness :
    ([⟨js "home icon.png", .node .file⟩, ⟨js "notes", .node .directory⟩,
        ⟨js "settings.png", .node .file⟩].map (fun e : Entry => e.name)).Nodup ∧
    3 + 2 ≤ 5 ∧
    ∃ plans, buildPlans 5 [⟨js "home icon.png", .node .file⟩, ⟨js "notes", .node .directory⟩,
        ⟨js "settings.png", .node .file⟩] = .ok plans ∧
      plans.map (fun p => p.fromName) = [js "home icon.png"] :=
  ⟨by decide, by decide,
    buildPlans_entries.1 [⟨js "home icon.png", .node .file⟩, ⟨js "notes", .node .directory⟩,
      ⟨js "settings.png", .node .file⟩] (by decide) 5 (by decide)⟩

/-- C5: in dry-run mode, on every directory whose plan is not empty, `main`
calls `fs.rename` not once, leaves the directory as it was, and prints for
every plan entry the line `<fromName>  ->  <toName>  (dry-run)`. -/
theorem main_dry_run (dir : Dir) (fuel : Nat) (hf : dir.length + 2 ≤ fuel) :
    ∃ plans, buildPlans fuel dir = .ok plans ∧
      (plans ≠ [] → ∃ run, main true fuel dir = some run ∧ run.renames = [] ∧ run.dir = dir ∧
        run.stdout = plans.map
          (fun p => p.fromName ++ js "  ->  " ++ p.toName ++ js "  (dry-run)")) := by
  obtain ⟨plans, h1, _, _⟩ := buildPlans_spec fuel dir hf
  refine ⟨plans, h1, fun hne => ?_⟩
  have hlen : plans.length ≠ 0 := by simpa using hne
  refine ⟨⟨plans.map (planLine true), [], dir, 0⟩, ?_, rfl, rfl, ?_⟩
  · simp [main, h1, hlen]
  · simp [planLine]

theorem main_dry_run_witness :
    2 + 2 ≤ 4 ∧
    ∃ plans, buildPlans 4 [⟨js "home icon.png", .node .file⟩,
        ⟨js "settings.png", .node .file⟩] = .ok plans ∧
      (plans ≠ [] → ∃ run, main true 4 [⟨js "home icon.png", .node .file⟩,
          ⟨js "settings.png", .node .file⟩] = some run ∧ run.renames = [] ∧
        run.dir = [⟨js "home icon.png", .node .file⟩, ⟨js "settings.png", .node .file⟩] ∧
        run.stdout = plans.map
          (fun p => p.fromName ++ js "  ->  " ++ p.toName ++ js "  (dry-run)")) :=
  ⟨by decide, main_dry_run [⟨js "home icon.png", .node .file⟩,
    ⟨js "settings.png", .node .file⟩] 4 (by decide)⟩

/-- Without `--dry-run` the same directory is changed, so the frame property
of the dry run is not a property of every run. -/
theorem main_real_run_example :
    main false 4 [⟨js "home icon.png", .node .file⟩, ⟨js "settings.png", .node .file⟩] =
      some ⟨[js "home icon.png  ->  HomeIconIconIcon.png"],
        [(js "home icon.png", js "HomeIconIconIcon.png")],
        [⟨js "HomeIconIconIcon.png", .node .file⟩, ⟨js "settings.png", .node .file⟩], 0⟩ ∧
    main true 4 [⟨js "home icon.png", .node .file⟩, ⟨js "settings.png", .node .file⟩] =
      some ⟨[js "home icon.png  ->  HomeIconIconIcon.png  (dry-run)"], [],
        [⟨js "home icon.png", .node .file⟩, ⟨js "settings.png", .node .file⟩], 0⟩ := by
  decide

/-- C6, as the code has it: the regular files `a b.png` and `a-b.png` both get
the destination `AIconBIcon.png`, so a destination can equal one chosen earlier
in the same run; and next to a dangling symbolic link `AIconBIcon` the file
`a b` gets the destination `AIconBIcon`, the name of that entry. -/
theorem duplicate_destinations :
    buildPlans 4 [⟨js "a b.png", .node .file⟩, ⟨js "a-b.png", .node .file⟩] =
      .ok [⟨js "a b.png", js "AIconBIcon.png"⟩, ⟨js "a-b.png", js "AIconBIcon.png"⟩] ∧
    buildPlans 4 [⟨js "a b", .node .file⟩, ⟨js "AIconBIcon", .symlink none⟩] =
      .ok [⟨js "a b", js "AIconBIcon"⟩] := by
  decide

/-- C6, amended: every destination name of the plan differs from every
entry name of the directory on which the existence probe succeeds when the
name is chosen, that is from every entry other than a dangling symbolic
link. -/
theorem buildPlans_destinations_absent (dir : Dir) (fuel : Nat) (hf : dir.length + 2 ≤ fuel) :
    ∃ plans, buildPlans fuel dir = .ok plans ∧ ∀ p ∈ plans, p.toName ∉ existing dir := by
  obtain ⟨plans, h1, _, h3⟩ := buildPlans_spec fuel dir hf
  refine ⟨plans, h1, fun p hp => ?_⟩
  obtain ⟨d, k, _, hto, habs, _⟩ := h3 p hp
  rw [hto]
  exact habs

theorem buildPlans_destinations_absent_witness :
    2 + 2 ≤ 4 ∧
    ∃ plans, buildPlans 4 [⟨js "a b.png", .node .file⟩, ⟨js "AIconBIcon.png", .node .file⟩] =
        .ok plans ∧
      ∀ p ∈ plans, p.toName ∉
        existing [⟨js "a b.png", .node .file⟩, ⟨js "AIconBIcon.png", .node .file⟩] :=
  ⟨by decide, buildPlans_destinations_absent
    [⟨js "a b.png", .node .file⟩, ⟨js "AIconBIcon.png", .node .file⟩] 4 (by decide)⟩

/-- C7, as the code has it: the stem `a b` is mapped to `AIconBIcon`, so next
to `AIconBIconIcon.png` the file `a b.png` gets the destination
`AIconBIcon.png`, with no collision and no `-2`. -/
theorem no_collision_with_AIconBIconIcon :
    toCamelCaseFromSeparators (js "a b") = some (js "AIconBIcon") ∧
    buildPlans 4 [⟨js "a b.png", .node .file⟩, ⟨js "AIconBIconIcon.png", .node .file⟩] =
      .ok [⟨js "a b.png", js "AIconBIcon.png"⟩] := by
  decide

/-- C7, amended: in a directory that holds the regular file `a b.png` and an
existing `AIconBIcon.png` but no `AIconBIcon-2.png`, the plan has an entry for
`a b.png`, and its destination name is `AIconBIcon-2.png`. -/
theorem collision_gets_suffix (dir : Dir) (hnd : (dir.map (fun e => e.name)).Nodup)
    (h1 : ⟨js "a b.png", .node .file⟩ ∈ dir) (h2 : js "AIconBIcon.png" ∈ existing dir)
    (h3 : js "AIconBIcon-2.png" ∉ existing dir) (fuel : Nat) (hf : dir.length + 2 ≤ fuel) :
    ∃ plans, buildPlans fuel dir = .ok plans ∧
      ⟨js "a b.png", js "AIconBIcon-2.png"⟩ ∈ plans ∧
      ∀ p ∈ plans, p.fromName = js "a b.png" → p.toName = js "AIconBIcon-2.png" := by
  obtain ⟨plans, hb, hnames, hdest⟩ := buildPlans_spec fuel dir hf
  have hd : desiredNameOf (js "a b.png") = some (js "AIconBIcon.png") := by decide
  have hto : ∀ p ∈ plans, p.fromName = js "a b.png" → p.toName = js "AIconBIcon-2.png" := by
    intro p hp hfrom
    obtain ⟨d, k, hd2, hk, habs, hpres⟩ := hdest p hp
    rw [hfrom, hd] at hd2
    have hdd : d = js "AIconBIcon.png" := (Option.some.inj hd2).symm
    subst hdd
    have hc0 : candidateAt (js "AIconBIcon.png") 0 = js "AIconBIcon.png" := rfl
    have hc1 : candidateAt (js "AIconBIcon.png") 1 = js "AIconBIcon-2.png" := by decide
    have hk1 : k = 1 := by
      rcases Nat.lt_trichotomy k 1 with h | h | h
      · have : k = 0 := by omega
        subst this
        exact absurd (hc0 ▸ h2) habs
      · exact h
      · exact absurd (hc1 ▸ hpres 1 h) h3
    rw [hk, hk1, hc1]
  have hw : wanted dir ⟨js "a b.png", .node .file⟩ = true := by
    rw [wanted_of_nodup dir hnd _ h1]
    simp only [hd]
    decide
  have hmem : js "a b.png" ∈ plans.map (fun p => p.fromName) := by
    rw [hnames]
    exact List.mem_map.mpr ⟨_, List.mem_filter.mpr ⟨h1, hw⟩, rfl⟩
  obtain ⟨p, hp, hpn⟩ := List.mem_map.mp hmem
  refine ⟨plans, hb, ?_, hto⟩
  have := hto p hp hpn
  have hpe : p = ⟨js "a b.png", js "AIconBIcon-2.png"⟩ := by
    cases p
    simp_all
  exact hpe ▸ hp

theorem collision_gets_suffix_witness :
    ([⟨js "a b.png", .node .file⟩, ⟨js "AIconBIcon.png", .node .file⟩].map
      (fun e : Entry => e.name)).Nodup ∧
    (⟨js "a b.png", .node .file⟩ : Entry) ∈
      [⟨js "a b.png", .node .file⟩, ⟨js "AIconBIcon.png", .node .file⟩] ∧
    js "AIconBIcon.png" ∈
      existing [⟨js "a b.png", .node .file⟩, ⟨js "AIconBIcon.png", .node .file⟩] ∧
    js "AIconBIcon-2.png" ∉
      existing [⟨js "a b.png", .node .file⟩, ⟨js "AIconBIcon.png", .node .file⟩] ∧
    2 + 2 ≤ 4 ∧
    ∃ plans, buildPlans 4 [⟨js "a b.png", .node .file⟩, ⟨js "AIconBIcon.png", .node .file⟩] =
        .ok plans ∧
      ⟨js "a b.png", js "AIconBIcon-2.png"⟩ ∈ plans ∧
      ∀ p ∈ plans, p.fromName = js "a b.png" → p.toName = js "AIconBIcon-2.png" :=
  ⟨by decide, by decide, by decide, by decide, by decide,
    collision_gets_suffix [⟨js "a b.png", .node .file⟩, ⟨js "AIconBIcon.png", .node .file⟩]
      (by decide) (by decide) (by decide) (by decide) 4 (by decide)⟩

/-- C8, as the code has it: a symbolic link `a b.png` whose target is a
regular file gets no plan entry, although its name transforms and a check that
followed the link would call it a regular file; the regular file of the same
name gets one. -/
theorem symlink_to_file_skipped :
    (EntryType.symlink (some NodeType.file)).isFileFollowingLinks = true ∧
    desiredNameOf (js "a b.png") = some (js "AIconBIcon.png") ∧
    buildPlans 3 [⟨js "a b.png", .symlink (some .file)⟩] = .ok [] ∧
    buildPlans 3 [⟨js "a b.png", .node .file⟩] = .ok [⟨js "a b.png", js "AIconBIcon.png"⟩] := by
  decide

/-- C8, amended: the regular-file check does not follow symbolic links. Every
child that is not itself a regular file, a symbolic link included whatever its
target, is skipped without a plan entry; every child that is itself a regular
file gets a plan entry when its name transforms. -/
theorem buildPlans_regular_files_only (dir : Dir) (hnd : (dir.map (fun e => e.name)).Nodup)
    (fuel : Nat) (hf : dir.length + 2 ≤ fuel) :
    ∃ plans, buildPlans fuel dir = .ok plans ∧
      (∀ e ∈ dir, e.type ≠ .node .file → ∀ p ∈ plans, p.fromName ≠ e.name) ∧
      (∀ e ∈ dir, e.type = .node .file → desiredNameOf e.name ≠ some e.name →
        ∃ p ∈ plans, p.fromName = e.name) := by
  obtain ⟨plans, hb, hnames, _⟩ := buildPlans_spec fuel dir hf
  refine ⟨plans, hb, ?_, ?_⟩
  · intro e he hty p hp hpn
    have hmem : p.fromName ∈ plans.map (fun p => p.fromName) := List.mem_map_of_mem _ hp
    rw [hnames] at hmem
    obtain ⟨x, hx, hxn⟩ := List.mem_map.mp hmem
    obtain ⟨hxd, hxw⟩ := List.mem_filter.mp hx
    rw [wanted_of_nodup dir hnd x hxd] at hxw
    have hxe : x = e := by
      have h1 := find_name_of_mem_nodup dir hnd x hxd
      have h2 := find_name_of_mem_nodup dir hnd e he
      have hname : x.name = e.name := by rw [← hpn]; exact hxn
      rw [hname] at h1
      rw [h1] at h2
      exact Option.some.inj h2
    subst hxe
    simp only [Bool.and_eq_true] at hxw
    exact hty (by simpa [EntryType.isFile] using hxw.1)
  · intro e he hty hne
    have hw : wanted dir e = true := by
      rw [wanted_of_nodup dir hnd e he]
      simp [EntryType.isFile, hty, hne]
    have hmem : e.name ∈ plans.map (fun p => p.fromName) := by
      rw [hnames]
      exact List.mem_map.mpr ⟨e, List.mem_filter.mpr ⟨he, hw⟩, rfl⟩
    obtain ⟨p, hp, hpn⟩ := List.mem_map.mp hmem
    exact ⟨p, hp, hpn⟩

theorem buildPlans_regular_files_only_witness :
    ([⟨js "a b.png", .symlink (some .file)⟩, ⟨js "c d.png", .node .file⟩].map
      (fun e : Entry => e.name)).Nodup ∧
    2 + 2 ≤ 4 ∧
    ∃ plans, buildPlans 4 [⟨js "a b.png", .symlink (some .file)⟩,
        ⟨js "c d.png", .node .file⟩] = .ok plans ∧
      (∀ e ∈ [(⟨js "a b.png", .symlink (some .file)⟩ : Entry), ⟨js "c d.png", .node .file⟩],
        e.type ≠ .node .file → ∀ p ∈ plans, p.fromName ≠ e.name) ∧
      (∀ e ∈ [(⟨js "a b.png", .symlink (some .file)⟩ : Entry), ⟨js "c d.png", .node .file⟩],
        e.type = .node .file → desiredNameOf e.name ≠ some e.name →
        ∃ p ∈ plans, p.fromName = e.name) :=
  ⟨by decide, by decide,
    buildPlans_regular_files_only [⟨js "a b.png", .symlink (some .file)⟩,
      ⟨js "c d.png", .node .file⟩] (by decide) 4 (by decide)⟩

end RenameIcons
